import Mathlib

/-!
# Markdown-keep note list: ordering, filtering and repository operations

A shallow embedding of the note repository of `src/app.js`.

* The module-level `notes` array is a `List Note`; every function that mutates it is a
  function from the old list to the new one.  Writes to local storage and to the DOM
  (`persistNotes`, `renderNotes`) do not change `notes` and are not part of the state.
* `Date.now()` and `crypto.randomUUID()` are inputs (`now`, `uuid`) of the functions that
  call them.
* `String.prototype.toLowerCase` is a parameter of the functions that use it (its Unicode
  case table is not part of the program); `trim`, `split`, `includes` are modelled on the
  code points of the string.
* `Array.prototype.sort` is stable and `sortNotes` hands it a comparator that is a total
  preorder, so its result is the stable sorted rearrangement, computed here by insertion
  sort.
-/

namespace Notes

/-- A note record, with the seven fields written by `createNotePayload`. -/
structure Note where
  id : String
  title : String
  body : String
  tags : List String
  pinned : Bool
  archived : Bool
  updatedAt : Int
  deriving DecidableEq

/-! ## Built-in string operations -/

/-- The code points removed by `String.prototype.trim`: ECMAScript `WhiteSpace`
(TAB, VT, FF, SP, NBSP, ZWNBSP and the category `Zs`) and `LineTerminator`
(LF, CR, LS, PS). -/
def isJsWhiteSpace (c : Char) : Bool :=
  let n := c.toNat
  n == 0x09 || n == 0x0A || n == 0x0B || n == 0x0C || n == 0x0D || n == 0x20 ||
  n == 0xA0 || n == 0x1680 || (0x2000 ≤ n && n ≤ 0x200A) || n == 0x2028 || n == 0x2029 ||
  n == 0x202F || n == 0x205F || n == 0x3000 || n == 0xFEFF

/-- The built-in `s.trim()`: white space removed at both ends. -/
def jsTrim (s : String) : String :=
  String.mk (((s.data.dropWhile isJsWhiteSpace).reverse.dropWhile isJsWhiteSpace).reverse)

/-- Splitting of a character list at every occurrence of `sep`; the empty input gives one
empty piece, as `"".split(",")` gives `[""]`. -/
def splitChars (sep : Char) : List Char → List (List Char)
  | [] => [[]]
  | c :: cs =>
    if c == sep then [] :: splitChars sep cs
    else
      match splitChars sep cs with
      | [] => [[c]]
      | w :: ws => (c :: w) :: ws

/-- The built-in `s.split(",")`. -/
def jsSplitComma (s : String) : List String :=
  (splitChars ',' s.data).map String.mk

/-- The built-in `s.includes(q)`: `q` occurs in `s` as a contiguous substring. -/
def includes (s q : String) : Bool :=
  decide (q.data <:+: s.data)

/-- Truthiness of a string: only the empty string is falsy. -/
def truthy (s : String) : Bool :=
  s != ""

/-! ## Repository operations -/

/-- `getNote(id)`: the first note whose id is `id`, or `none` for `undefined`. -/
def getNote (notes : List Note) (id : String) : Option Note :=
  notes.find? (fun note => note.id == id)

/-- The object spread `{ ...old, ...payload }` of two note records: every key of the
payload overrides the key of the old record. -/
def mergeNote (old payload : Note) : Note :=
  { old with
    id := payload.id
    title := payload.title
    body := payload.body
    tags := payload.tags
    pinned := payload.pinned
    archived := payload.archived
    updatedAt := payload.updatedAt }

/-- `upsertNote(payload)`, its effect on `notes`: `findIndex` by id, then either the
assignment `notes[index] = { ...notes[index], ...payload }` or `notes.unshift(payload)`. -/
def upsertNote (notes : List Note) (payload : Note) : List Note :=
  match notes.findIdx? (fun note => note.id == payload.id) with
  | some index => notes.modify (fun old => mergeNote old payload) index
  | none => payload :: notes

/-- `deleteNote(id)`: `notes.filter((note) => note.id !== id)`. -/
def deleteNote (notes : List Note) (id : String) : List Note :=
  notes.filter (fun note => note.id != id)

/-- The comparator handed to `notes.sort` in `sortNotes`. -/
def compareNotes (a b : Note) : Int :=
  if a.pinned != b.pinned then (if a.pinned then -1 else 1)
  else if a.archived != b.archived then (if a.archived then 1 else -1)
  else b.updatedAt - a.updatedAt

/-- The order of the comparator: `a` may stand before `b` when the comparator's result
is not positive. -/
def noteLE (a b : Note) : Prop :=
  compareNotes a b ≤ 0

instance : DecidableRel noteLE :=
  fun a b => inferInstanceAs (Decidable (compareNotes a b ≤ 0))

instance : IsTotal Note noteLE :=
  ⟨fun a b => by
    unfold noteLE compareNotes
    cases ha : a.pinned <;> cases hb : b.pinned <;> cases hc : a.archived <;>
      cases hd : b.archived <;> simp <;> omega⟩

instance : IsTrans Note noteLE :=
  ⟨fun a b c hab hbc => by
    unfold noteLE compareNotes at *
    cases ha : a.pinned <;> cases hb : b.pinned <;> cases hc : c.pinned <;>
      cases ha2 : a.archived <;> cases hb2 : b.archived <;> cases hc2 : c.archived <;>
      simp [ha, hb, hc, ha2, hb2, hc2] at hab hbc ⊢ <;> omega⟩

/-- `sortNotes()`: the stable sort of `notes` by `compareNotes`. -/
def sortNotes (notes : List Note) : List Note :=
  notes.insertionSort noteLE

/-- In-place update of the object that `getNote(id)` returns: the first note with that id
is replaced by `f` of it, every other element stays. -/
def updateNote (f : Note → Note) (id : String) : List Note → List Note
  | [] => []
  | note :: rest =>
    if note.id == id then f note :: rest else note :: updateNote f id rest

/-- `togglePin(id)`: nothing when no note has the id; otherwise the flag is flipped,
`updatedAt` is set to the current time and the list is sorted. -/
def togglePin (now : Int) (notes : List Note) (id : String) : List Note :=
  match getNote notes id with
  | none => notes
  | some _ =>
    sortNotes (updateNote
      (fun note => { note with pinned := !note.pinned, updatedAt := now }) id notes)

/-- `toggleArchive(id)`: as `togglePin`, on the `archived` flag. -/
def toggleArchive (now : Int) (notes : List Note) (id : String) : List Note :=
  match getNote notes id with
  | none => notes
  | some _ =>
    sortNotes (updateNote
      (fun note => { note with archived := !note.archived, updatedAt := now }) id notes)

/-- `persistOrder()`: `orderedIds.map((id) => getNote(id)).filter(Boolean)`, where
`orderedIds` are the ids of the note cards in the container, in document order. -/
def persistOrder (notes : List Note) (orderedIds : List String) : List Note :=
  (orderedIds.map (fun id => getNote notes id)).filterMap (fun found => found)

/-- `filterNotes()`: the notes that pass the active category and the search text. -/
def filterNotes (toLowerCase : String → String) (activeFilter search : String)
    (notes : List Note) : List Note :=
  let query := toLowerCase (jsTrim search)
  notes.filter (fun note =>
    if activeFilter == "pinned" && !note.pinned then false
    else if activeFilter == "archived" && !note.archived then false
    else if !truthy query then true
    else
      let inTitle := includes (toLowerCase note.title) query
      let inBody := includes (toLowerCase note.body) query
      let inTags := note.tags.any (fun tag => includes (toLowerCase tag) query)
      inTitle || inBody || inTags)

/-! ## Editor and save action -/

/-- The expression `editingId ? getNote(editingId)?.flag ?? false : false`: the flag of the
note being edited; `false` when `editingId` is `null` or falsy, or no note has that id. -/
def editedFlag (notes : List Note) (editingId : Option String) (flag : Note → Bool) : Bool :=
  match editingId with
  | some id => if truthy id then ((getNote notes id).map flag).getD false else false
  | none => false

/-- `createNotePayload()`: `none` for `null`.  `titleValue`, `bodyValue`, `tagsValue` are
the values of the three editor fields, `uuid` the result of `crypto.randomUUID()` and
`now` the result of `Date.now()`. -/
def createNotePayload (notes : List Note) (editingId : Option String)
    (titleValue bodyValue tagsValue uuid : String) (now : Int) : Option Note :=
  let title := jsTrim titleValue
  let body := jsTrim bodyValue
  let tags := ((jsSplitComma tagsValue).map jsTrim).filter truthy
  if !truthy title && !truthy body then none
  else
    some
      { id := editingId.getD uuid
        title := if truthy title then title else "Untitled note"
        body := body
        tags := tags
        pinned := editedFlag notes editingId (fun note => note.pinned)
        archived := editedFlag notes editingId (fun note => note.archived)
        updatedAt := now }

/-- The part of the module state that the save button reads and writes. -/
structure AppState where
  notes : List Note
  editingId : Option String
  titleValue : String
  bodyValue : String
  tagsValue : String
  deriving DecidableEq

/-- `clearEditor()`: the three fields are emptied and `editingId` is reset. -/
def clearEditor (s : AppState) : AppState :=
  { s with titleValue := "", bodyValue := "", tagsValue := "", editingId := none }

/-- The click handler of the save button: `createNotePayload()`, and when the payload is
not `null`, `upsertNote(payload)`, which ends with `clearEditor()`. -/
def saveClick (s : AppState) (uuid : String) (now : Int) : AppState :=
  match createNotePayload s.notes s.editingId s.titleValue s.bodyValue s.tagsValue uuid now with
  | some payload => clearEditor { s with notes := upsertNote s.notes payload }
  | none => s

/-! ## Sequences of repository operations -/

/-- One call of `upsertNote` or of `deleteNote`. -/
inductive RepoOp where
  | upsert (payload : Note)
  | delete (id : String)

/-- The effect of one operation on `notes`. -/
def applyOp (notes : List Note) : RepoOp → List Note
  | RepoOp.upsert payload => upsertNote notes payload
  | RepoOp.delete id => deleteNote notes id

/-- The effect of a finite sequence of operations, first to last. -/
def applyOps (notes : List Note) (ops : List RepoOp) : List Note :=
  ops.foldl applyOp notes

/-! ## Sample data -/

/-- Lower-casing of the letters `A` to `Z`, an instance of the `toLowerCase` parameter. -/
def asciiLowerCase (s : String) : String :=
  String.mk (s.data.map Char.toLower)

/-- Note A of the sort scenario: pinned, `updatedAt = 100`. -/
def noteA : Note :=
  { id := "a", title := "A", body := "", tags := [], pinned := true, archived := false,
    updatedAt := 100 }

/-- Note B of the sort scenario: not pinned, `updatedAt = 200`. -/
def noteB : Note :=
  { id := "b", title := "B", body := "", tags := ["work"], pinned := false, archived := false,
    updatedAt := 200 }

/-- A pinned and archived note. -/
def noteC : Note :=
  { id := "c", title := "C", body := "old", tags := [], pinned := true, archived := true,
    updatedAt := 50 }

/-- A pinned and archived note whose id is the empty string. -/
def noteE : Note :=
  { id := "", title := "E", body := "", tags := [], pinned := true, archived := true,
    updatedAt := 10 }

/-- An editor holding the title `Todo` and an empty body, nothing being edited. -/
def todoState : AppState :=
  { notes := [noteA], editingId := none, titleValue := " Todo ", bodyValue := "",
    tagsValue := "x, y" }

/-- An editor holding only a body, nothing being edited. -/
def bodyOnlyState : AppState :=
  { notes := [noteA], editingId := none, titleValue := "", bodyValue := "text",
    tagsValue := "" }

/-- An editor that edits note C. -/
def editState : AppState :=
  { notes := [noteA, noteC, noteB], editingId := some "c", titleValue := "C2",
    bodyValue := "new", tagsValue := "" }

/-- An editor that edits the note whose id is the empty string. -/
def emptyIdState : AppState :=
  { notes := [noteE], editingId := some "", titleValue := "E2", bodyValue := "",
    tagsValue := "" }

/-! ## Order lemmas -/

theorem sortNotes_sorted (l : List Note) : (sortNotes l).Sorted noteLE :=
  List.sorted_insertionSort noteLE l

theorem sortNotes_perm (l : List Note) : (sortNotes l).Perm l :=
  List.perm_insertionSort noteLE l

theorem sortNotes_eq_self_iff (l : List Note) : sortNotes l = l ↔ l.Sorted noteLE :=
  ⟨fun h => h ▸ sortNotes_sorted l, fun h => List.Sorted.insertionSort_eq h⟩

theorem sortNotes_rel_of_lt (l : List Note) (i j : Nat) (hi : i < (sortNotes l).length)
    (hj : j < (sortNotes l).length) (hij : i < j) :
    noteLE (sortNotes l)[i] (sortNotes l)[j] :=
  List.pairwise_iff_getElem.mp (sortNotes_sorted l) i j hi hj hij

theorem not_noteLE_of_unpinned_pinned {a b : Note} (ha : a.pinned = false)
    (hb : b.pinned = true) : ¬ noteLE a b := by
  unfold noteLE compareNotes
  simp [ha, hb]

theorem not_noteLE_of_archived {a b : Note} (hp : a.pinned = true → b.pinned = true)
    (ha : a.archived = true) (hb : b.archived = false) : ¬ noteLE a b := by
  unfold noteLE compareNotes
  cases h1 : a.pinned <;> cases h2 : b.pinned <;> simp_all


theorem mem_updateNote {f : Note → Note} {id : String} {l : List Note} {x z : Note}
    (hx : getNote l id = some x) (hz : z ∈ updateNote f id l) : z ∈ l ∨ z = f x := by
  induction l with
  | nil => simp [getNote] at hx
  | cons n rest ih =>
    unfold getNote at hx ih
    rw [List.find?_cons] at hx
    unfold updateNote at hz
    cases hn : (n.id == id) with
    | true =>
      simp only [hn, if_true, Option.some.injEq] at hx hz
      subst hx
      rcases List.mem_cons.mp hz with h | h
      · exact Or.inr h
      · exact Or.inl (List.mem_cons_of_mem _ h)
    | false =>
      simp only [hn] at hx hz
      rcases List.mem_cons.mp hz with h | h
      · exact Or.inl (h ▸ List.mem_cons_self _ _)
      · rcases ih hx h with h2 | h2
        · exact Or.inl (List.mem_cons_of_mem _ h2)
        · exact Or.inr h2

theorem updateNote_mem {f : Note → Note} {id : String} {l : List Note} {x : Note}
    (hx : getNote l id = some x) : f x ∈ updateNote f id l := by
  induction l with
  | nil => simp [getNote] at hx
  | cons n rest ih =>
    unfold getNote at hx ih
    rw [List.find?_cons] at hx
    unfold updateNote
    cases hn : (n.id == id) with
    | true =>
      simp only [hn, if_true, Option.some.injEq] at hx ⊢
      subst hx
      exact List.mem_cons_self _ _
    | false =>
      simp only [hn] at hx ⊢
      exact List.mem_cons_of_mem _ (ih hx)

/-! ## Sorting -/

/-- C5: after `sortNotes`, every note with `pinned = true` and `archived = false` stands
before every note with `pinned = false`: its index is the smaller one. -/
theorem sortNotes_pinned_first (l : List Note) (i j : Nat)
    (hi : i < (sortNotes l).length) (hj : j < (sortNotes l).length)
    (hp : (sortNotes l)[i].pinned = true) (_ha : (sortNotes l)[i].archived = false)
    (hq : (sortNotes l)[j].pinned = false) : i < j := by
  by_contra hlt
  have hne : i ≠ j := by
    intro h
    subst h
    rw [hp] at hq
    exact Bool.noConfusion hq
  have hji : j < i := by omega
  exact not_noteLE_of_unpinned_pinned hq hp (sortNotes_rel_of_lt l j i hj hi hji)

/-- Witness of C5 on the scenario of the specification: A pinned with `updatedAt = 100`
and B unpinned with `updatedAt = 200` sort to `[A, B]`, A at index 0 and B at index 1. -/
theorem sortNotes_pinned_first_witness :
    sortNotes [noteB, noteA] = [noteA, noteB] ∧ (0 : Nat) < 1 :=
  ⟨by decide,
   sortNotes_pinned_first [noteB, noteA] 0 1 (by decide) (by decide) (by decide) (by decide)
     (by decide)⟩

/-- C6: `sortNotes` is idempotent. -/
theorem sortNotes_idempotent (l : List Note) : sortNotes (sortNotes l) = sortNotes l :=
  List.Sorted.insertionSort_eq (sortNotes_sorted l)

/-- C1, as stated, fails: in the sorted list of an unpinned non-archived note and a pinned
archived note the archived note stands first; and `toggleArchive` on the pinned note A of
the list `[A, B]` of non-archived notes leaves A at the first position, B at the last. -/
theorem sortNotes_archived_last_counterexample :
    (¬ ∀ (i j : Nat) (hi : i < (sortNotes [noteB, noteC]).length)
        (hj : j < (sortNotes [noteB, noteC]).length),
        (sortNotes [noteB, noteC])[i].archived = true →
        (sortNotes [noteB, noteC])[j].archived = false → j < i) ∧
    (toggleArchive 300 [noteA, noteB] "a").getLast? ≠
      some { noteA with archived := true, updatedAt := 300 } := by
  constructor
  · intro h
    have h01 := h 0 1 (by decide) (by decide) (by decide) (by decide)
    omega
  · decide

/-- C1, amended: after `sortNotes` an archived note stands after every non-archived note
that is pinned whenever the archived one is; a pinned archived note stands before every
unpinned note, archived or not; and `toggleArchive` on a note of a list whose notes are
all pinned and non-archived leaves the toggled note at the last position. -/
theorem sortNotes_archived_last :
    (∀ (l : List Note) (i j : Nat) (hi : i < (sortNotes l).length)
        (hj : j < (sortNotes l).length),
        (sortNotes l)[i].archived = true → (sortNotes l)[j].archived = false →
        ((sortNotes l)[i].pinned = true → (sortNotes l)[j].pinned = true) → j < i) ∧
    (∀ (l : List Note) (i j : Nat) (hi : i < (sortNotes l).length)
        (hj : j < (sortNotes l).length),
        (sortNotes l)[i].pinned = true → (sortNotes l)[i].archived = true →
        (sortNotes l)[j].pinned = false → i < j) ∧
    (∀ (now : Int) (l : List Note) (id : String) (x : Note),
        getNote l id = some x → (∀ y ∈ l, y.pinned = true) → (∀ y ∈ l, y.archived = false) →
        (toggleArchive now l id).getLast? = some { x with archived := true, updatedAt := now }) := by
  refine ⟨?_, ?_, ?_⟩
  · intro l i j hi hj hxa hya hpin
    by_contra hlt
    have hne : i ≠ j := by
      intro h
      subst h
      rw [hxa] at hya
      exact Bool.noConfusion hya
    have hij : i < j := by omega
    exact not_noteLE_of_archived hpin hxa hya (sortNotes_rel_of_lt l i j hi hj hij)
  · intro l i j hi hj hxp _ hyp
    by_contra hlt
    have hne : i ≠ j := by
      intro h
      subst h
      rw [hxp] at hyp
      exact Bool.noConfusion hyp
    have hji : j < i := by omega
    exact not_noteLE_of_unpinned_pinned hyp hxp (sortNotes_rel_of_lt l j i hj hi hji)
  · intro now l id x hx hpin harch
    have hxl : x ∈ l := List.mem_of_find?_eq_some hx
    have hxa : x.archived = false := harch x hxl
    unfold toggleArchive
    rw [hx]
    simp only
    generalize hl' : updateNote
      (fun note => { note with archived := !note.archived, updatedAt := now }) id l = l'
    have hmem : ({ x with archived := !x.archived, updatedAt := now } : Note) ∈ sortNotes l' :=
      (sortNotes_perm l').mem_iff.mpr (hl' ▸ updateNote_mem hx)
    rw [hxa] at hmem
    simp only [Bool.not_false] at hmem
    rcases List.eq_nil_or_concat (sortNotes l') with hnil | ⟨ys, z, hs⟩
    · rw [hnil] at hmem
      exact absurd hmem (List.not_mem_nil _)
    · rw [List.concat_eq_append] at hs
      have hsorted := sortNotes_sorted l'
      rw [hs] at hmem hsorted ⊢
      have hz : z ∈ l' := (sortNotes_perm l').mem_iff.mp (hs ▸ by simp)
      rw [← hl'] at hz
      rw [List.getLast?_concat]
      rcases mem_updateNote hx hz with hzl | hzx
      · exfalso
        have hne : ({ x with archived := true, updatedAt := now } : Note) ≠ z := by
          intro h
          have := harch z hzl
          rw [← h] at this
          exact Bool.noConfusion this
        have hys : ({ x with archived := true, updatedAt := now } : Note) ∈ ys := by
          rcases List.mem_append.mp hmem with h | h
          · exact h
          · exact absurd (List.mem_singleton.mp h) hne
        have hrel : noteLE { x with archived := true, updatedAt := now } z :=
          (List.pairwise_append.mp hsorted).2.2 _ hys z (List.mem_singleton_self z)
        exact not_noteLE_of_archived (fun _ => hpin z hzl) rfl (harch z hzl) hrel
      · rw [hzx, hxa]
        rfl

/-- Witness of the amended C1: the unpinned archived note sorts after the unpinned note B;
the pinned archived note C sorts before the unpinned non-archived note B and before an
unpinned archived note; and archiving the older of two pinned notes leaves it last. -/
theorem sortNotes_archived_last_witness :
    (1 : Nat) < 2 ∧
    sortNotes [noteB, noteC] = [noteC, noteB] ∧
    (0 : Nat) < 1 ∧
    sortNotes [{ noteB with archived := true }, noteC] =
      [noteC, { noteB with archived := true }] ∧
    (0 : Nat) < 1 ∧
    (toggleArchive 300 [noteA, { noteB with pinned := true }] "a").getLast? =
      some { noteA with archived := true, updatedAt := 300 } :=
  ⟨sortNotes_archived_last.1 [{ noteC with pinned := false }, noteA, noteB] 2 1
      (by decide) (by decide) (by decide) (by decide) (by decide),
   by decide,
   sortNotes_archived_last.2.1 [noteB, noteC] 0 1
      (by decide) (by decide) (by decide) (by decide) (by decide),
   by decide,
   sortNotes_archived_last.2.1 [{ noteB with archived := true }, noteC] 0 1
      (by decide) (by decide) (by decide) (by decide) (by decide),
   sortNotes_archived_last.2.2 300 [noteA, { noteB with pinned := true }] "a" noteA
      (by decide) (by decide) (by decide)⟩

/-! ## The sort order under the mutating operations -/

/-- The sort order is kept by `deleteNote`, `togglePin` and `toggleArchive`: applied to a
list that is its own `sortNotes` result they give such a list again. -/
theorem sorted_preserved_delete_toggle (now : Int) (l : List Note) (id : String)
    (h : sortNotes l = l) :
    sortNotes (deleteNote l id) = deleteNote l id ∧
    sortNotes (togglePin now l id) = togglePin now l id ∧
    sortNotes (toggleArchive now l id) = toggleArchive now l id := by
  refine ⟨?_, ?_, ?_⟩
  · exact (sortNotes_eq_self_iff _).mpr
      (List.Sorted.filter _ ((sortNotes_eq_self_iff l).mp h))
  · unfold togglePin
    cases getNote l id with
    | none => exact h
    | some _ => exact List.Sorted.insertionSort_eq (sortNotes_sorted _)
  · unfold toggleArchive
    cases getNote l id with
    | none => exact h
    | some _ => exact List.Sorted.insertionSort_eq (sortNotes_sorted _)

/-- C2 at a failing input: the list `[A]` with A pinned is sorted; `upsertNote` of the
unpinned note B, whose id is new, gives `[B, A]`, which is not sorted (`sortNotes` turns
it into `[A, B]`).  The same on the merge path: in the sorted list `[B, A0]` of two
unpinned notes, an update of A0 with a newer `updatedAt` stays at index 1. -/
theorem upsertNote_not_sorted :
    sortNotes [noteA] = [noteA] ∧
    upsertNote [noteA] noteB = [noteB, noteA] ∧
    sortNotes (upsertNote [noteA] noteB) = [noteA, noteB] ∧
    sortNotes (upsertNote [noteA] noteB) ≠ upsertNote [noteA] noteB ∧
    sortNotes [noteB, { noteA with pinned := false }] = [noteB, { noteA with pinned := false }] ∧
    sortNotes (upsertNote [noteB, { noteA with pinned := false }]
        { noteA with pinned := false, updatedAt := 300 }) ≠
      upsertNote [noteB, { noteA with pinned := false }]
        { noteA with pinned := false, updatedAt := 300 } := by
  decide

/-! ## Uniqueness of ids -/

theorem map_id_modify_of_id_eq (l : List Note) (payload : Note) (i : Nat)
    (h : ∀ hi : i < l.length, (l.get ⟨i, hi⟩).id = payload.id) :
    (l.modify (fun old => mergeNote old payload) i).map (fun n => n.id) =
      l.map (fun n => n.id) := by
  induction l generalizing i with
  | nil => simp
  | cons n rest ih =>
    cases i with
    | zero =>
      have h0 := h (by simp)
      simp only [List.get_eq_getElem, List.getElem_cons_zero] at h0
      simp [mergeNote, h0]
    | succ k =>
      simp only [List.modify_succ_cons, List.map_cons, List.cons.injEq, true_and]
      apply ih
      intro hk
      have := h (by simpa using hk)
      simpa using this

theorem upsertNote_ids (l : List Note) (payload : Note) :
    (upsertNote l payload).map (fun n => n.id) = l.map (fun n => n.id) ∨
    ((∀ n ∈ l, n.id ≠ payload.id) ∧ upsertNote l payload = payload :: l) := by
  unfold upsertNote
  cases hf : l.findIdx? (fun note => note.id == payload.id) with
  | none =>
    right
    refine ⟨?_, rfl⟩
    intro n hn
    have := List.findIdx?_eq_none_iff.mp hf n hn
    simpa using this
  | some i =>
    left
    apply map_id_modify_of_id_eq
    intro hi
    have := (List.findIdx?_eq_some_iff_getElem.mp hf)
    obtain ⟨_, hp, _⟩ := this
    simpa using hp

theorem upsertNote_nodup (l : List Note) (payload : Note)
    (h : (l.map (fun n => n.id)).Nodup) :
    ((upsertNote l payload).map (fun n => n.id)).Nodup := by
  rcases upsertNote_ids l payload with hs | ⟨hnew, hcons⟩
  · rw [hs]
    exact h
  · rw [hcons, List.map_cons, List.nodup_cons]
    refine ⟨?_, h⟩
    intro hm
    obtain ⟨n, hn, hid⟩ := List.mem_map.mp hm
    exact hnew n hn hid

theorem deleteNote_nodup (l : List Note) (id : String)
    (h : (l.map (fun n => n.id)).Nodup) :
    ((deleteNote l id).map (fun n => n.id)).Nodup :=
  (List.Sublist.map _ (List.filter_sublist l)).nodup h

/-- C3: every finite sequence of `upsertNote` and `deleteNote` operations, applied to a
repository whose ids are pairwise distinct, gives a repository whose ids are pairwise
distinct. -/
theorem applyOps_ids_nodup (ops : List RepoOp) (notes : List Note)
    (h : (notes.map (fun n => n.id)).Nodup) :
    ((applyOps notes ops).map (fun n => n.id)).Nodup := by
  unfold applyOps
  induction ops generalizing notes with
  | nil => exact h
  | cons op rest ih =>
    rw [List.foldl_cons]
    apply ih
    cases op with
    | upsert payload => exact upsertNote_nodup notes payload h
    | delete id => exact deleteNote_nodup notes id h

/-- Witness of C3, from the empty repository: two saves, an update of the first and a
delete leave one record. -/
theorem applyOps_ids_nodup_witness :
    (([] : List Note).map (fun n => n.id)).Nodup ∧
    applyOps [] [RepoOp.upsert noteA, RepoOp.upsert noteB,
      RepoOp.upsert { noteA with title := "A2" }, RepoOp.delete "b"] =
        [{ noteA with title := "A2" }] ∧
    ((applyOps [] [RepoOp.upsert noteA, RepoOp.upsert noteB,
      RepoOp.upsert { noteA with title := "A2" }, RepoOp.delete "b"]).map
        (fun n => n.id)).Nodup :=
  ⟨List.nodup_nil, by decide,
   applyOps_ids_nodup [RepoOp.upsert noteA, RepoOp.upsert noteB,
      RepoOp.upsert { noteA with title := "A2" }, RepoOp.delete "b"] [] List.nodup_nil⟩

/-! ## Reordering -/

theorem getNote_of_mem_nodup {l : List Note} (h : (l.map (fun n => n.id)).Nodup) {n : Note}
    (hn : n ∈ l) : getNote l n.id = some n := by
  induction l with
  | nil => exact absurd hn (List.not_mem_nil _)
  | cons m rest ih =>
    rw [List.map_cons, List.nodup_cons] at h
    unfold getNote at ih ⊢
    rw [List.find?_cons]
    rcases List.mem_cons.mp hn with heq | hmem
    · subst heq
      simp
    · have hne : (m.id == n.id) = false := by
        apply beq_false_of_ne
        intro hid
        exact h.1 (hid ▸ List.mem_map_of_mem (fun n => n.id) hmem)
      simp only [hne]
      exact ih h.2 hmem

/-- What `persistOrder` keeps: when the ids of the repository are pairwise distinct and
`orderedIds` is a rearrangement of the ids of the displayed notes, the repository after
`persistOrder` is a rearrangement of the displayed notes. -/
theorem persistOrder_perm_displayed (notes displayed : List Note) (orderedIds : List String)
    (hnodup : (notes.map (fun n => n.id)).Nodup) (hsub : ∀ n ∈ displayed, n ∈ notes)
    (hperm : orderedIds.Perm (displayed.map (fun n => n.id))) :
    (persistOrder notes orderedIds).Perm displayed := by
  unfold persistOrder
  rw [List.filterMap_map]
  have h1 := List.Perm.filterMap ((fun found => found) ∘ fun id => getNote notes id) hperm
  have h2 : List.filterMap ((fun found => found) ∘ fun id => getNote notes id)
      (displayed.map (fun n => n.id)) = displayed := by
    rw [List.filterMap_map]
    have : ∀ n ∈ displayed,
        (((fun found => found) ∘ fun id => getNote notes id) ∘ fun n => n.id) n = some n := by
      intro n hn
      exact getNote_of_mem_nodup hnodup (hsub n hn)
    rw [List.filterMap_congr this]
    exact List.filterMap_some displayed
  rw [h2] at h1
  exact h1

/-- C4 at a failing input: in the repository `[A, B]` with the category `pinned` only A is
displayed, `["a"]` is the id sequence of the displayed cards, and after `persistOrder` the
repository is `[A]`: the note B is gone and the result is no rearrangement of `[A, B]`. -/
theorem persistOrder_drops_hidden :
    (([noteA, noteB] : List Note).map (fun n => n.id)).Nodup ∧
    filterNotes asciiLowerCase "pinned" "" [noteA, noteB] = [noteA] ∧
    (["a"] : List String).Perm
      ((filterNotes asciiLowerCase "pinned" "" [noteA, noteB]).map (fun n => n.id)) ∧
    persistOrder [noteA, noteB] ["a"] = [noteA] ∧
    noteB ∉ persistOrder [noteA, noteB] ["a"] ∧
    ¬ (persistOrder [noteA, noteB] ["a"]).Perm [noteA, noteB] := by
  refine ⟨by decide, by decide, by decide, by decide, by decide, ?_⟩
  intro h
  have := h.length_eq
  revert this
  decide

/-! ## Filtering -/

theorem any_decide_eq (tags : List String) (P : String → Prop) [DecidablePred P] :
    tags.any (fun tag => decide (P tag)) = decide (∃ tag ∈ tags, P tag) := by
  rw [Bool.eq_iff_iff]
  simp [List.any_eq_true]

/-- C7: for an active category among `all`, `pinned`, `archived`, `filterNotes` returns
the notes, in repository order, that match the category and whose title, body or some tag
contains the trimmed lower-cased query when that query is not empty; with the category
`pinned` and an empty query these are the notes with `pinned = true`. -/
theorem filterNotes_spec (toLowerCase : String → String) (activeFilter search : String)
    (notes : List Note)
    (hcat : activeFilter = "all" ∨ activeFilter = "pinned" ∨ activeFilter = "archived") :
    filterNotes toLowerCase activeFilter search notes =
      notes.filter (fun n => decide
        ((activeFilter = "all" ∨ (activeFilter = "pinned" ∧ n.pinned = true) ∨
            (activeFilter = "archived" ∧ n.archived = true)) ∧
         (toLowerCase (jsTrim search) = "" ∨
            (toLowerCase (jsTrim search)).data <:+: (toLowerCase n.title).data ∨
            (toLowerCase (jsTrim search)).data <:+: (toLowerCase n.body).data ∨
            ∃ tag ∈ n.tags, (toLowerCase (jsTrim search)).data <:+: (toLowerCase tag).data))) ∧
    (activeFilter = "pinned" → toLowerCase (jsTrim search) = "" →
      filterNotes toLowerCase activeFilter search notes = notes.filter (fun n => n.pinned)) := by
  have hne1 : ("all" : String) ≠ "pinned" := by decide
  have hne2 : ("all" : String) ≠ "archived" := by decide
  have hne3 : ("pinned" : String) ≠ "archived" := by decide
  have hne4 : ("pinned" : String) ≠ "all" := by decide
  have hne5 : ("archived" : String) ≠ "all" := by decide
  have hne6 : ("archived" : String) ≠ "pinned" := by decide
  constructor
  · unfold filterNotes
    apply List.filter_congr
    intro n _
    rcases hcat with h | h | h <;> subst h <;>
      cases hp : n.pinned <;> cases ha : n.archived <;>
      by_cases hq : toLowerCase (jsTrim search) = "" <;>
      simp [truthy, includes, hq, hne1, hne2, hne3, hne4, hne5, hne6, any_decide_eq,
        Bool.or_assoc]
  · intro hpin hq
    unfold filterNotes
    apply List.filter_congr
    intro n _
    subst hpin
    cases hp : n.pinned <;> simp [truthy, hq, hne3]

/-- Witness of C7: the category `pinned` with an empty query keeps the pinned notes A and
C of `[A, B, C]`, and the category `all` with the query `WOR` keeps B, whose tag is
`work`. -/
theorem filterNotes_spec_witness :
    filterNotes asciiLowerCase "pinned" "  " [noteA, noteB, noteC] = [noteA, noteC] ∧
    filterNotes asciiLowerCase "pinned" "  " [noteA, noteB, noteC] =
      [noteA, noteB, noteC].filter (fun n => n.pinned) ∧
    filterNotes asciiLowerCase "all" " WOR " [noteA, noteB, noteC] = [noteB] ∧
    filterNotes asciiLowerCase "all" " WOR " [noteA, noteB, noteC] =
      [noteA, noteB, noteC].filter (fun n => decide
        (("all" = "all" ∨ ("all" = "pinned" ∧ n.pinned = true) ∨
            ("all" = "archived" ∧ n.archived = true)) ∧
         (asciiLowerCase (jsTrim " WOR ") = "" ∨
            (asciiLowerCase (jsTrim " WOR ")).data <:+: (asciiLowerCase n.title).data ∨
            (asciiLowerCase (jsTrim " WOR ")).data <:+: (asciiLowerCase n.body).data ∨
            ∃ tag ∈ n.tags,
              (asciiLowerCase (jsTrim " WOR ")).data <:+: (asciiLowerCase tag).data))) :=
  ⟨by decide,
   (filterNotes_spec asciiLowerCase "pinned" "  " [noteA, noteB, noteC]
      (Or.inr (Or.inl rfl))).2 rfl (by decide),
   by decide,
   (filterNotes_spec asciiLowerCase "all" " WOR " [noteA, noteB, noteC] (Or.inl rfl)).1⟩

/-! ## Upsert -/

theorem findIdx_of_getNote {l : List Note} {id : String} {x : Note}
    (hx : getNote l id = some x) :
    ∃ (i : Nat) (hi : i < l.length),
      l.findIdx? (fun note => note.id == id) = some i ∧ l[i] = x := by
  induction l with
  | nil => simp [getNote] at hx
  | cons n rest ih =>
    unfold getNote at hx ih
    rw [List.find?_cons] at hx
    cases hn : (n.id == id) with
    | true =>
      simp only [hn, Option.some.injEq] at hx
      exact ⟨0, by simp, by simp [List.findIdx?_cons, hn], by simpa using hx⟩
    | false =>
      simp only [hn] at hx
      obtain ⟨i, hi, hf, hxi⟩ := ih hx
      exact ⟨i + 1, by simpa using hi,
        by simp [List.findIdx?_cons, hn, List.findIdx?_succ, hf], by simpa using hxi⟩

theorem upsertNote_of_findIdx {l : List Note} {payload : Note} {i : Nat}
    (hf : l.findIdx? (fun note => note.id == payload.id) = some i) :
    ∃ hi : i < l.length,
      l[i].id = payload.id ∧
      (∀ (j : Nat) (hj : j < l.length), j < i → l[j].id ≠ payload.id) ∧
      (upsertNote l payload).length = l.length ∧
      (upsertNote l payload)[i]? = some (mergeNote l[i] payload) ∧
      ∀ j, j ≠ i → (upsertNote l payload)[j]? = l[j]? := by
  obtain ⟨hi, hp, hbefore⟩ := List.findIdx?_eq_some_iff_getElem.mp hf
  refine ⟨hi, by simpa using hp, ?_, ?_, ?_, ?_⟩
  · intro j hj hji
    have := hbefore j hji
    simpa using this
  · unfold upsertNote
    rw [hf]
    simp
  · unfold upsertNote
    rw [hf]
    simp [List.getElem?_eq_getElem hi]
  · intro j hj
    unfold upsertNote
    rw [hf]
    simp only
    exact List.getElem?_modify_ne _ _ (Ne.symm hj)

/-- C9: when some record has the id of the payload, `upsertNote` keeps the length, puts
the merge of the old record and the payload at the index of the first such record and
leaves every other position as it was; when no record has that id the result is the
payload followed by the old repository. -/
theorem upsertNote_spec (notes : List Note) (payload : Note) :
    ((∃ n ∈ notes, n.id = payload.id) →
      ∃ (i : Nat) (hi : i < notes.length),
        notes[i].id = payload.id ∧
        (∀ (j : Nat) (hj : j < notes.length), j < i → notes[j].id ≠ payload.id) ∧
        (upsertNote notes payload).length = notes.length ∧
        (upsertNote notes payload)[i]? = some (mergeNote notes[i] payload) ∧
        ∀ j, j ≠ i → (upsertNote notes payload)[j]? = notes[j]?) ∧
    ((¬ ∃ n ∈ notes, n.id = payload.id) → upsertNote notes payload = payload :: notes) := by
  constructor
  · intro hex
    cases hf : notes.findIdx? (fun note => note.id == payload.id) with
    | none =>
      exfalso
      obtain ⟨n, hn, hid⟩ := hex
      have := List.findIdx?_eq_none_iff.mp hf n hn
      simp [hid] at this
    | some i =>
      exact ⟨i, upsertNote_of_findIdx hf⟩
  · intro hnex
    cases hf : notes.findIdx? (fun note => note.id == payload.id) with
    | none =>
      unfold upsertNote
      rw [hf]
    | some i =>
      exfalso
      obtain ⟨hi, hid, _⟩ := upsertNote_of_findIdx hf
      exact hnex ⟨notes[i], List.getElem_mem hi, hid⟩

/-- Witness of C9: an update of B in `[A, B]` replaces index 1, and a payload with a new
id goes to the front. -/
theorem upsertNote_spec_witness :
    upsertNote [noteA, noteB] { noteB with title := "B2", pinned := true } =
      [noteA, { noteB with title := "B2", pinned := true }] ∧
    (∃ (i : Nat) (hi : i < [noteA, noteB].length),
        [noteA, noteB][i].id = "b" ∧
        (∀ (j : Nat) (hj : j < [noteA, noteB].length), j < i → [noteA, noteB][j].id ≠ "b") ∧
        (upsertNote [noteA, noteB] { noteB with title := "B2", pinned := true }).length =
          [noteA, noteB].length ∧
        (upsertNote [noteA, noteB] { noteB with title := "B2", pinned := true })[i]? =
          some (mergeNote [noteA, noteB][i] { noteB with title := "B2", pinned := true }) ∧
        ∀ j, j ≠ i →
          (upsertNote [noteA, noteB] { noteB with title := "B2", pinned := true })[j]? =
            [noteA, noteB][j]?) ∧
    upsertNote [noteA, noteB] noteC = [noteC, noteA, noteB] :=
  ⟨by decide,
   (upsertNote_spec [noteA, noteB] { noteB with title := "B2", pinned := true }).1
      ⟨noteB, by decide, rfl⟩,
   (upsertNote_spec [noteA, noteB] noteC).2 (by decide)⟩

/-! ## Saving from the editor -/

theorem createNotePayload_eq_none_iff (notes : List Note) (editingId : Option String)
    (titleValue bodyValue tagsValue uuid : String) (now : Int) :
    createNotePayload notes editingId titleValue bodyValue tagsValue uuid now = none ↔
      (jsTrim titleValue = "" ∧ jsTrim bodyValue = "") := by
  unfold createNotePayload
  by_cases ht : jsTrim titleValue = "" <;> by_cases hb : jsTrim bodyValue = "" <;>
    simp [truthy, ht, hb]

theorem createNotePayload_some (notes : List Note) (editingId : Option String)
    (titleValue bodyValue tagsValue uuid : String) (now : Int)
    (h : ¬ (jsTrim titleValue = "" ∧ jsTrim bodyValue = "")) :
    createNotePayload notes editingId titleValue bodyValue tagsValue uuid now =
      some
        { id := editingId.getD uuid
          title := if jsTrim titleValue = "" then "Untitled note" else jsTrim titleValue
          body := jsTrim bodyValue
          tags := ((jsSplitComma tagsValue).map jsTrim).filter truthy
          pinned := editedFlag notes editingId (fun note => note.pinned)
          archived := editedFlag notes editingId (fun note => note.archived)
          updatedAt := now } := by
  unfold createNotePayload
  by_cases ht : jsTrim titleValue = "" <;> by_cases hb : jsTrim bodyValue = "" <;>
    simp_all [truthy]

theorem upsertNote_of_fresh {l : List Note} {payload : Note}
    (h : ∀ n ∈ l, n.id ≠ payload.id) : upsertNote l payload = payload :: l := by
  unfold upsertNote
  have hf : l.findIdx? (fun note => note.id == payload.id) = none := by
    rw [List.findIdx?_eq_none_iff]
    intro n hn
    exact beq_false_of_ne (h n hn)
  rw [hf]

/-- C8, as stated, fails: with an empty title and the body `text`, nothing being edited,
the save action creates a record whose title is `Untitled note`, not the trimmed title. -/
theorem saveClick_title_counterexample :
    ¬ ∃ p : Note, (saveClick bodyOnlyState "u1" 7).notes = p :: bodyOnlyState.notes ∧
      p.body = jsTrim bodyOnlyState.bodyValue ∧ p.title = jsTrim bodyOnlyState.titleValue := by
  rintro ⟨p, hnotes, _, htitle⟩
  have hval : (saveClick bodyOnlyState "u1" 7).notes =
      [{ id := "u1", title := "Untitled note", body := "text", tags := [], pinned := false,
         archived := false, updatedAt := 7 }, noteA] := by decide
  rw [hval] at hnotes
  have hp := (List.cons.inj hnotes).1
  rw [← hp] at htitle
  revert htitle
  decide

/-- C8, amended: `createNotePayload` returns `null` exactly when the trimmed title and the
trimmed body are both empty, and the save action then changes nothing; otherwise, with no
`editingId` and a generated id that no record has, the repository after the save is one
new record followed by the old repository, the body of the record is the trimmed body and
its title is the trimmed title, or `Untitled note` when the trimmed title is empty. -/
theorem saveClick_spec (s : AppState) (uuid : String) (now : Int) :
    (createNotePayload s.notes s.editingId s.titleValue s.bodyValue s.tagsValue uuid now = none ↔
      (jsTrim s.titleValue = "" ∧ jsTrim s.bodyValue = "")) ∧
    ((jsTrim s.titleValue = "" ∧ jsTrim s.bodyValue = "") → saveClick s uuid now = s) ∧
    (¬ (jsTrim s.titleValue = "" ∧ jsTrim s.bodyValue = "") → s.editingId = none →
      (∀ n ∈ s.notes, n.id ≠ uuid) →
      ∃ p : Note, (saveClick s uuid now).notes = p :: s.notes ∧ p.id = uuid ∧
        p.body = jsTrim s.bodyValue ∧
        p.title = (if jsTrim s.titleValue = "" then "Untitled note" else jsTrim s.titleValue)) := by
  refine ⟨createNotePayload_eq_none_iff _ _ _ _ _ _ _, ?_, ?_⟩
  · intro hempty
    unfold saveClick
    rw [(createNotePayload_eq_none_iff _ _ _ _ _ _ _).mpr hempty]
  · intro hcontent hed hfresh
    unfold saveClick
    rw [createNotePayload_some _ _ _ _ _ _ _ hcontent, hed]
    simp only [clearEditor, Option.getD_none]
    rw [upsertNote_of_fresh hfresh]
    exact ⟨_, rfl, rfl, rfl, rfl⟩

/-- Witness of C8: the title `Todo` with an empty body creates the record with title
`Todo` and body the empty string; an empty editor is rejected and changes nothing. -/
theorem saveClick_spec_witness :
    (saveClick todoState "u1" 7).notes =
      [{ id := "u1", title := "Todo", body := "", tags := ["x", "y"], pinned := false,
         archived := false, updatedAt := 7 }, noteA] ∧
    (∃ p : Note, (saveClick todoState "u1" 7).notes = p :: todoState.notes ∧ p.id = "u1" ∧
        p.body = jsTrim todoState.bodyValue ∧
        p.title = (if jsTrim todoState.titleValue = "" then "Untitled note"
          else jsTrim todoState.titleValue)) ∧
    saveClick { todoState with titleValue := "  ", bodyValue := "" } "u2" 8 =
      { todoState with titleValue := "  ", bodyValue := "" } :=
  ⟨by decide,
   (saveClick_spec todoState "u1" 7).2.2 (by decide) rfl (by decide),
   (saveClick_spec { todoState with titleValue := "  ", bodyValue := "" } "u2" 8).2.1
      (by decide)⟩

theorem getNote_modify_of_findIdx (f : Note → Note) (id : String)
    (hfid : ∀ n : Note, (f n).id = id) (l : List Note) (i : Nat)
    (hf : l.findIdx? (fun note => note.id == id) = some i) :
    getNote (l.modify f i) id = (l[i]?).map f := by
  induction l generalizing i with
  | nil => simp at hf
  | cons n rest ih =>
    rw [List.findIdx?_cons] at hf
    cases hn : (n.id == id) with
    | true =>
      simp only [hn, if_true, Option.some.injEq] at hf
      subst hf
      simp [getNote, List.find?_cons, hfid]
    | false =>
      simp only [hn, Bool.false_eq_true, if_false, List.findIdx?_succ, Option.map_eq_some'] at hf
      obtain ⟨k, hk, hki⟩ := hf
      subst hki
      have := ih k (by simpa using hk)
      simp only [getNote] at this
      simp [getNote, List.find?_cons, hn, this]

/-- C10 at a failing input: the repository holds the pinned archived note E whose id is
the empty string, the editor edits it (`editingId` is that id) with the title `E2`; the
payload keeps the id (`editingId ?? ...`) but takes both flags as `false`
(`editingId ? ... : false`), and after the save the record with that id has
`pinned = false` and `archived = false`. -/
theorem saveClick_empty_id_resets_flags :
    emptyIdState.editingId = some noteE.id ∧
    getNote emptyIdState.notes noteE.id = some noteE ∧
    noteE.pinned = true ∧ noteE.archived = true ∧
    jsTrim emptyIdState.titleValue ≠ "" ∧
    createNotePayload emptyIdState.notes emptyIdState.editingId emptyIdState.titleValue
        emptyIdState.bodyValue emptyIdState.tagsValue "u1" 7 =
      some { id := "", title := "E2", body := "", tags := [], pinned := false,
             archived := false, updatedAt := 7 } ∧
    (saveClick emptyIdState "u1" 7).notes =
      [{ id := "", title := "E2", body := "", tags := [], pinned := false,
         archived := false, updatedAt := 7 }] ∧
    ¬ ∃ r : Note, getNote (saveClick emptyIdState "u1" 7).notes noteE.id = some r ∧
      r.pinned = noteE.pinned ∧ r.archived = noteE.archived := by
  refine ⟨by decide, by decide, by decide, by decide, by decide, by decide, by decide, ?_⟩
  rintro ⟨r, hget, hpin, _⟩
  have hval : getNote (saveClick emptyIdState "u1" 7).notes noteE.id =
      some { id := "", title := "E2", body := "", tags := [], pinned := false,
             archived := false, updatedAt := 7 } := by decide
  rw [hval] at hget
  have hr := Option.some.inj hget
  rw [← hr] at hpin
  revert hpin
  decide

/-- The save of an edit on every other input: when `editingId` is a non-empty id,
`getNote` finds the record `r` for it and the trimmed title or body is not empty, the save
action keeps the number of records, the record at the index of `r` (the first with that
id, and the one `getNote` finds afterwards) has the id `editingId` and the `pinned` and
`archived` values of `r`, and every other position is unchanged. -/
theorem saveClick_editing_keeps_flags (s : AppState) (eid : String) (r : Note)
    (uuid : String) (now : Int)
    (hed : s.editingId = some eid) (hne : eid ≠ "") (hr : getNote s.notes eid = some r)
    (hcontent : ¬ (jsTrim s.titleValue = "" ∧ jsTrim s.bodyValue = "")) :
    ∃ (i : Nat) (hi : i < s.notes.length) (r' : Note),
      s.notes[i] = r ∧
      (∀ (j : Nat) (hj : j < s.notes.length), j < i → s.notes[j].id ≠ eid) ∧
      (saveClick s uuid now).notes.length = s.notes.length ∧
      (saveClick s uuid now).notes[i]? = some r' ∧
      getNote (saveClick s uuid now).notes eid = some r' ∧
      r'.id = eid ∧ r'.pinned = r.pinned ∧ r'.archived = r.archived ∧
      ∀ j, j ≠ i → (saveClick s uuid now).notes[j]? = s.notes[j]? := by
  obtain ⟨i, hi, hf, hri⟩ := findIdx_of_getNote hr
  have hflagp : editedFlag s.notes (some eid) (fun note => note.pinned) = r.pinned := by
    simp [editedFlag, truthy, hne, hr]
  have hflaga : editedFlag s.notes (some eid) (fun note => note.archived) = r.archived := by
    simp [editedFlag, truthy, hne, hr]
  have hsave : (saveClick s uuid now).notes =
      upsertNote s.notes
        { id := eid
          title := if jsTrim s.titleValue = "" then "Untitled note" else jsTrim s.titleValue
          body := jsTrim s.bodyValue
          tags := ((jsSplitComma s.tagsValue).map jsTrim).filter truthy
          pinned := r.pinned
          archived := r.archived
          updatedAt := now } := by
    unfold saveClick
    rw [createNotePayload_some _ _ _ _ _ _ _ hcontent, hed, hflagp, hflaga]
    rfl
  rw [hsave]
  generalize hp : ({ id := eid
                     title := if jsTrim s.titleValue = "" then "Untitled note"
                       else jsTrim s.titleValue
                     body := jsTrim s.bodyValue
                     tags := ((jsSplitComma s.tagsValue).map jsTrim).filter truthy
                     pinned := r.pinned
                     archived := r.archived
                     updatedAt := now } : Note) = payload
  have hpid : payload.id = eid := by rw [← hp]
  have hppin : payload.pinned = r.pinned := by rw [← hp]
  have hparch : payload.archived = r.archived := by rw [← hp]
  rw [← hpid] at hf
  obtain ⟨_, _, hbefore, hlen, hat, hother⟩ := upsertNote_of_findIdx hf
  refine ⟨i, hi, mergeNote s.notes[i] payload, hri, ?_, hlen, hat, ?_, ?_, ?_, ?_, hother⟩
  · intro j hj hji
    rw [← hpid]
    exact hbefore j hj hji
  · rw [← hpid]
    have hg := getNote_modify_of_findIdx (fun old => mergeNote old payload) payload.id
      (fun _ => rfl) s.notes i hf
    unfold upsertNote
    rw [hf]
    simp only
    rw [hg, List.getElem?_eq_getElem hi]
    rfl
  · exact hpid
  · exact hppin
  · exact hparch

/-- An edit of the pinned archived note C in `[A, C, B]` keeps both flags of C and the
two other notes. -/
theorem saveClick_editing_keeps_flags_witness :
    (saveClick editState "u1" 7).notes =
      [noteA, { id := "c", title := "C2", body := "new", tags := [], pinned := true,
                archived := true, updatedAt := 7 }, noteB] ∧
    ∃ (i : Nat) (hi : i < editState.notes.length) (r' : Note),
      editState.notes[i] = noteC ∧
      (∀ (j : Nat) (hj : j < editState.notes.length), j < i → editState.notes[j].id ≠ "c") ∧
      (saveClick editState "u1" 7).notes.length = editState.notes.length ∧
      (saveClick editState "u1" 7).notes[i]? = some r' ∧
      getNote (saveClick editState "u1" 7).notes "c" = some r' ∧
      r'.id = "c" ∧ r'.pinned = noteC.pinned ∧ r'.archived = noteC.archived ∧
      ∀ j, j ≠ i → (saveClick editState "u1" 7).notes[j]? = editState.notes[j]? :=
  ⟨by decide,
   saveClick_editing_keeps_flags editState "c" noteC "u1" 7 rfl (by decide) (by decide)
     (by decide)⟩
end Notes
